import Mathlib

/-!
Verification of the sorted-vector map `Oryol::Core::Map`
(src/code/Core/Containers/Map.h) against its specification.

The map is templated over KEY/VALUE; we embed it generically over a
`LinearOrder` on keys.  C++ `int32` quantities are embedded as `Int` where
sign matters (growth policy, sentinel indices) and as `Nat` where the source
maintains non-negativity (sizes, capacities, buffer indices).  Assertion
failures (`o_assert`) and out-of-contract accesses are embedded as `none` of
an `Option` result.
-/

set_option maxHeartbeats 1000000
set_option linter.unusedSectionVars false

namespace Oryol

/-- Modelled from the spec: the key/value pair type (KeyValuePair.h is not in
the source tree).  It holds one key and one value; its ordering and equality
used by the map compare solely by key (spec section 3). -/
structure KeyValuePair (KEY VALUE : Type) where
  key : KEY
  value : VALUE
deriving DecidableEq, Repr

/-- Modelled from the spec: the double-ended element buffer (elementBuffer.h is
not in the source tree).  It owns a contiguous allocation with a live range
`elems` in the middle, `frontSpare` unused slots before it and `backSpare`
unused slots after it (spec sections 3 and 4.1). -/
structure elementBuffer (T : Type) where
  frontSpare : Nat
  elems : List T
  backSpare : Nat
deriving DecidableEq, Repr

namespace elementBuffer

variable {T : Type}

/-- Number of live elements. -/
def size (b : elementBuffer T) : Nat := b.elems.length

/-- Total allocated capacity: front spare + live range + back spare. -/
def capacity (b : elementBuffer T) : Nat :=
  b.frontSpare + b.elems.length + b.backSpare

/-- Total unused capacity. -/
def spare (b : elementBuffer T) : Nat := b.frontSpare + b.backSpare

/-- Modelled from the spec: `insertAt` inserts at logical position `idx`
(0 ≤ idx ≤ size), shifting whichever adjacent side needs fewer element moves
and consuming one spare slot on the side that was shifted; contract violation
if the index is out of range or no spare capacity remains (spec section 4.1). -/
def insertAt (b : elementBuffer T) (idx : Nat) (elm : T) : Option (elementBuffer T) :=
  if idx ≤ b.elems.length ∧ 0 < b.frontSpare + b.backSpare then
    if (idx < b.elems.length - idx ∧ 0 < b.frontSpare) ∨ b.backSpare = 0 then
      some ⟨b.frontSpare - 1, b.elems.insertIdx idx elm, b.backSpare⟩
    else
      some ⟨b.frontSpare, b.elems.insertIdx idx elm, b.backSpare - 1⟩
  else none

/-- Modelled from the spec: `eraseAt` removes the element at `idx`, shifting
the shorter adjacent side inward (that side gains one spare slot); contract
violation if the index is outside the live range (spec section 4.1). -/
def eraseAt (b : elementBuffer T) (idx : Nat) : Option (elementBuffer T) :=
  if idx < b.elems.length then
    if idx < b.elems.length - (idx + 1) then
      some ⟨b.frontSpare + 1, b.elems.eraseIdx idx, b.backSpare⟩
    else
      some ⟨b.frontSpare, b.elems.eraseIdx idx, b.backSpare + 1⟩
  else none

/-- Modelled from the spec: `alloc` replaces the storage with a new allocation
of the given capacity, the live range starting `frontOffset` slots from the
base; contract violation if the range does not fit (spec section 4.1). -/
def alloc (b : elementBuffer T) (cap frontOffset : Nat) : Option (elementBuffer T) :=
  if frontOffset + b.elems.length ≤ cap then
    some ⟨frontOffset, b.elems, cap - frontOffset - b.elems.length⟩
  else none

/-- Modelled from the spec: destruction releases the allocation and resets the
buffer to an empty, zeroed state (spec section 4.1). -/
def destroy (_b : elementBuffer T) : elementBuffer T := ⟨0, [], 0⟩

/-- Modelled from the spec: buffer copy truncates capacity to the current size
(spec section 3: copy construction truncates capacity to current size). -/
def copy (b : elementBuffer T) : elementBuffer T := ⟨0, b.elems, 0⟩

end elementBuffer

/-- Modelled from the spec: the `InvalidIndex` sentinel returned by the find
operations (Config.h is not in the source tree; the sentinel is a negative
`int32`). -/
def InvalidIndex : Int := -1

/-- Position returned by `std::lower_bound(elmStart, elmEnd, key)` with the
key-only ordering of `KeyValuePair`: the first index whose element's key is
not less than `key` (index = length when there is none). -/
def lowerBound {KEY VALUE : Type} [LinearOrder KEY]
    (l : List (KeyValuePair KEY VALUE)) (key : KEY) : Nat :=
  l.findIdx fun kvp => decide (key ≤ kvp.key)

/-- The map state: the element buffer plus the growth policy and the bulk-mode
flag (Map.h lines 373-376). -/
structure Map (KEY VALUE : Type) where
  buffer : elementBuffer (KeyValuePair KEY VALUE)
  minGrow : Int
  maxGrow : Int
  inBulkMode : Bool
deriving DecidableEq, Repr

/-- Constructor with allocation strategy (Map.h lines 47-51): empty buffer,
given growth policy, Normal mode. -/
def mkMap {KEY VALUE : Type} (minGrow maxGrow : Int) : Map KEY VALUE :=
  ⟨⟨0, [], 0⟩, minGrow, maxGrow, false⟩

namespace Map

variable {KEY VALUE : Type} [LinearOrder KEY]

/-- Map.h `Size()`. -/
def Size (m : Map KEY VALUE) : Nat := m.buffer.size

/-- Map.h `Capacity()`. -/
def Capacity (m : Map KEY VALUE) : Nat := m.buffer.capacity

/-- Map.h `adjustCapacity` (lines 352-357): reallocate with a balanced front
spare `(newCapacity - size) >> 1`; the `o_assert(frontSpare >= 0)` fails when
the requested capacity is below the current size. -/
def adjustCapacity (m : Map KEY VALUE) (newCapacity : Nat) : Option (Map KEY VALUE) :=
  if m.buffer.size ≤ newCapacity then
    (m.buffer.alloc newCapacity ((newCapacity - m.buffer.size) / 2)).map
      fun b => { m with buffer := b }
  else none

/-- Growth amount computed by Map.h `grow` (lines 360-367): capacity>>1,
raised to minGrow when below it, else lowered to maxGrow when above it. -/
def growByOf (m : Map KEY VALUE) : Int :=
  let growBy0 : Int := (m.buffer.capacity : Int) / 2
  if growBy0 < m.minGrow then m.minGrow
  else if growBy0 > m.maxGrow then m.maxGrow
  else growBy0

/-- Map.h `grow` (lines 359-371): compute growBy, `o_assert(growBy > 0)`, then
reallocate to capacity + growBy. -/
def grow (m : Map KEY VALUE) : Option (Map KEY VALUE) :=
  if 0 < m.growByOf then
    m.adjustCapacity ((m.buffer.capacity : Int) + m.growByOf).toNat
  else none

/-- Map.h `Contains` (lines 109-112): asserts Normal mode, then
`std::binary_search` over the live range, i.e. lower-bound followed by an
equivalence check at the found position. -/
def Contains (m : Map KEY VALUE) (key : KEY) : Option Bool :=
  if m.inBulkMode then none
  else some (match m.buffer.elems[lowerBound m.buffer.elems key]? with
    | some kvp => decide (¬ key < kvp.key)
    | none => false)

/-- Map.h `operator[]` (lines 115-127): asserts Normal mode, lower-bound, then
asserts that the key was found. -/
def Lookup (m : Map KEY VALUE) (key : KEY) : Option VALUE :=
  if m.inBulkMode then none
  else match m.buffer.elems[lowerBound m.buffer.elems key]? with
    | some kvp => if key = kvp.key then some kvp.value else none
    | none => none

/-- Map.h `Insert(kvp)` (lines 149-157): asserts Normal mode, grows when no
spare capacity remains, then inserts at the lower-bound position. -/
def Insert (m : Map KEY VALUE) (kvp : KeyValuePair KEY VALUE) : Option (Map KEY VALUE) :=
  if m.inBulkMode then none
  else
    match (if m.buffer.spare = 0 then m.grow else some m) with
    | none => none
    | some m1 =>
      match m1.buffer.insertAt (lowerBound m1.buffer.elems kvp.key) kvp with
      | none => none
      | some b => some { m1 with buffer := b }

/-- Map.h `InsertUnique(kvp)` (lines 173-187): as `Insert`, but returns false
without inserting when the element at the lower-bound position exists and has
the same key. -/
def InsertUnique (m : Map KEY VALUE) (kvp : KeyValuePair KEY VALUE) :
    Option (Bool × Map KEY VALUE) :=
  if m.inBulkMode then none
  else
    match (if m.buffer.spare = 0 then m.grow else some m) with
    | none => none
    | some m1 =>
      if (m1.buffer.elems[lowerBound m1.buffer.elems kvp.key]?).any
          (fun p => decide (p.key = kvp.key)) then
        some (false, m1)
      else
        match m1.buffer.insertAt (lowerBound m1.buffer.elems kvp.key) kvp with
        | none => none
        | some b => some (true, { m1 with buffer := b })

/-- Body of the while loop in Map.h `Erase` (lines 213-215): while the element
at `idx` exists and matches the key, erase it.  The loop runs at most
`size` times; `fuel` is initialised to the live size by the caller. -/
def eraseLoop : Nat → elementBuffer (KeyValuePair KEY VALUE) → Nat → KEY →
    Option (elementBuffer (KeyValuePair KEY VALUE))
  | 0, b, _, _ => some b
  | fuel + 1, b, idx, key =>
    if (b.elems[idx]?).any (fun p => decide (p.key = key)) then
      match b.eraseAt idx with
      | none => none
      | some b1 => eraseLoop fuel b1 idx key
    else some b

/-- Map.h `Erase` (lines 209-217): lower-bound, then erase the run of elements
matching the key.  Note: the source has no `o_assert(!inBulkMode)` here. -/
def Erase (m : Map KEY VALUE) (key : KEY) : Option (Map KEY VALUE) :=
  if lowerBound m.buffer.elems key < m.buffer.elems.length then
    match eraseLoop m.buffer.elems.length m.buffer (lowerBound m.buffer.elems key) key with
    | none => none
    | some b => some { m with buffer := b }
  else some m

/-- Map.h `BeginBulk` (lines 220-223): asserts Normal mode and sets the bulk
flag. -/
def BeginBulk (m : Map KEY VALUE) : Option (Map KEY VALUE) :=
  if m.inBulkMode then none else some { m with inBulkMode := true }

/-- Map.h `InsertBulk(kvp)` (lines 225-239): asserts Bulk mode, grows when no
spare capacity remains, then inserts at the front when the front spare
exceeds the back spare, else at the back. -/
def InsertBulk (m : Map KEY VALUE) (kvp : KeyValuePair KEY VALUE) : Option (Map KEY VALUE) :=
  if m.inBulkMode = false then none
  else
    match (if m.buffer.spare = 0 then m.grow else some m) with
    | none => none
    | some m1 =>
      if m1.buffer.frontSpare > m1.buffer.backSpare then
        match m1.buffer.insertAt 0 kvp with
        | none => none
        | some b => some { m1 with buffer := b }
      else
        match m1.buffer.insertAt m1.buffer.size kvp with
        | none => none
        | some b => some { m1 with buffer := b }

/-- Map.h two-argument `InsertBulk(key, value)` (lines 259-261): the source
routes this overload through the non-bulk `Insert`. -/
def InsertBulkKV (m : Map KEY VALUE) (key : KEY) (value : VALUE) : Option (Map KEY VALUE) :=
  m.Insert ⟨key, value⟩

/-- Map.h `EndBulk` (lines 263-267): asserts Bulk mode, clears the flag and
sorts the live range by key (`std::sort` embedded as a comparison sort over
the key order). -/
def EndBulk (m : Map KEY VALUE) : Option (Map KEY VALUE) :=
  if m.inBulkMode = false then none
  else some { m with
    inBulkMode := false,
    buffer := { m.buffer with
      elems := m.buffer.elems.insertionSort fun a b => a.key ≤ b.key } }

/-- Index (relative to the scan start) of the first adjacent equal-key pair,
as scanned by the loop in Map.h `FindDuplicate` (lines 273-277). -/
def adjDup : List (KeyValuePair KEY VALUE) → Option Nat
  | a :: b :: rest =>
    if a.key = b.key then some 0 else (adjDup (b :: rest)).map Nat.succ
  | _ => none

/-- Map.h `FindDuplicate` (lines 269-280): asserts Normal mode, scans from
`startIndex` for the first adjacent equal-key pair, `InvalidIndex` when there
is none. -/
def FindDuplicate (m : Map KEY VALUE) (startIndex : Nat) : Option Int :=
  if m.inBulkMode then none
  else some (match adjDup (m.buffer.elems.drop startIndex) with
    | some i => ((startIndex + i : Nat) : Int)
    | none => InvalidIndex)

/-- Map.h `FindIndex` (lines 283-292): asserts Normal mode, lower-bound, then
the index when the key matches there, else `InvalidIndex`. -/
def FindIndex (m : Map KEY VALUE) (key : KEY) : Option Int :=
  if m.inBulkMode then none
  else some (match m.buffer.elems[lowerBound m.buffer.elems key]? with
    | some kvp =>
      if key = kvp.key then ((lowerBound m.buffer.elems key : Nat) : Int)
      else InvalidIndex
    | none => InvalidIndex)

/-- Map.h `KeyAtIndex` (lines 298-300): unchecked element access (no bulk-mode
assert; out-of-range access is undefined, embedded as `none`). -/
def KeyAtIndex (m : Map KEY VALUE) (idx : Nat) : Option KEY :=
  (m.buffer.elems[idx]?).map fun p => p.key

/-- Map.h `ValueAtIndex` (lines 302-308): unchecked element access (no
bulk-mode assert). -/
def ValueAtIndex (m : Map KEY VALUE) (idx : Nat) : Option VALUE :=
  (m.buffer.elems[idx]?).map fun p => p.value

/-- Map.h private `destroy` (lines 329-333): zero the growth policy and
destroy the buffer (`inBulkMode` is left untouched). -/
def destroy (m : Map KEY VALUE) : Map KEY VALUE :=
  { buffer := m.buffer.destroy, minGrow := 0, maxGrow := 0, inBulkMode := m.inBulkMode }

/-- Map.h private `copy` (lines 335-340): take policy, mode and a
capacity-truncating copy of the buffer from `rhs`. -/
def copyFrom (_self rhs : Map KEY VALUE) : Map KEY VALUE :=
  { buffer := rhs.buffer.copy, minGrow := rhs.minGrow, maxGrow := rhs.maxGrow,
    inBulkMode := rhs.inBulkMode }

/-- Map.h copy-assignment `operator=` (lines 66-72): guarded by the
`&rhs != this` self-assignment check (`aliased` embeds pointer equality of
the two operands); otherwise destroy then copy. -/
def copyAssign (self rhs : Map KEY VALUE) (aliased : Bool) : Map KEY VALUE :=
  if aliased then self else (self.destroy).copyFrom rhs

/-- Map.h move-assignment `operator=` (lines 74-80) together with private
`move` (lines 342-350): guarded by the `&rhs != this` check; otherwise the
destination takes the buffer and policy of `rhs` and `rhs` is reset to an
empty, zeroed state.  Returns (new destination state, new source state); for
an aliased call both are the untouched operand. -/
def moveAssign (self rhs : Map KEY VALUE) (aliased : Bool) :
    Map KEY VALUE × Map KEY VALUE :=
  if aliased then (self, rhs)
  else (⟨rhs.buffer, rhs.minGrow, rhs.maxGrow, rhs.inBulkMode⟩, ⟨⟨0, [], 0⟩, 0, 0, false⟩)

end Map

/-- One Normal-mode mutating call, for stating properties of call sequences. -/
inductive MapOp (KEY VALUE : Type) where
  | ins (kvp : KeyValuePair KEY VALUE)
  | insUnique (kvp : KeyValuePair KEY VALUE)
  | erase (key : KEY)

/-- Run one call against a map state. -/
def applyOp {KEY VALUE : Type} [LinearOrder KEY] (m : Map KEY VALUE) :
    MapOp KEY VALUE → Option (Map KEY VALUE)
  | .ins kvp => m.Insert kvp
  | .insUnique kvp => (m.InsertUnique kvp).map Prod.snd
  | .erase key => m.Erase key

/-- Run a sequence of calls against a map state. -/
def runOps {KEY VALUE : Type} [LinearOrder KEY] (m : Map KEY VALUE)
    (ops : List (MapOp KEY VALUE)) : Option (Map KEY VALUE) :=
  ops.foldlM applyOp m

/-- Run a sequence of plain `Insert` calls. -/
def insertAll {KEY VALUE : Type} [LinearOrder KEY] (m : Map KEY VALUE)
    (ps : List (KeyValuePair KEY VALUE)) : Option (Map KEY VALUE) :=
  ps.foldlM Map.Insert m

/-- Run a sequence of one-argument `InsertBulk` calls. -/
def insertBulkAll {KEY VALUE : Type} [LinearOrder KEY] (m : Map KEY VALUE)
    (ps : List (KeyValuePair KEY VALUE)) : Option (Map KEY VALUE) :=
  ps.foldlM Map.InsertBulk m

/-- The live range is non-decreasing by key (the Normal-mode sort invariant). -/
def sortedByKey {KEY VALUE : Type} [LinearOrder KEY]
    (l : List (KeyValuePair KEY VALUE)) : Prop :=
  List.Sorted (fun a b => a.key ≤ b.key) l

/-- The growth amount as worded by the spec: capacity/2 clamped into the
interval [minGrow, maxGrow].  Stated from the spec's words, to be compared
with the source's `growByOf`. -/
def clampedGrowBy {KEY VALUE : Type} (m : Map KEY VALUE) : Int :=
  max m.minGrow (min ((m.buffer.capacity : Int) / 2) m.maxGrow)

section Lemmas

variable {KEY VALUE : Type} [LinearOrder KEY]

instance : IsTotal (KeyValuePair KEY VALUE) fun a b => a.key ≤ b.key :=
  ⟨fun a b => le_total a.key b.key⟩

instance : IsTrans (KeyValuePair KEY VALUE) fun a b => a.key ≤ b.key :=
  ⟨fun _ _ _ hab hbc => le_trans hab hbc⟩

instance (l : List (KeyValuePair KEY VALUE)) : Decidable (sortedByKey l) :=
  inferInstanceAs
    (Decidable (List.Sorted (fun a b : KeyValuePair KEY VALUE => a.key ≤ b.key) l))

theorem lowerBound_le_length (l : List (KeyValuePair KEY VALUE)) (key : KEY) :
    lowerBound l key ≤ l.length :=
  List.findIdx_le_length _

theorem key_lt_of_lt_lowerBound {l : List (KeyValuePair KEY VALUE)} {key : KEY} {j : Nat}
    (hj : j < l.length) (h : j < lowerBound l key) : (l.get ⟨j, hj⟩).key < key := by
  have hfalse := List.not_of_lt_findIdx h
  rw [List.get_eq_getElem]
  simpa [decide_eq_false_iff_not, not_le] using hfalse

theorem le_key_at_lowerBound {l : List (KeyValuePair KEY VALUE)} {key : KEY}
    (h : lowerBound l key < l.length) : key ≤ (l.get ⟨lowerBound l key, h⟩).key := by
  have htrue : (fun kvp : KeyValuePair KEY VALUE => decide (key ≤ kvp.key))
      (l.get ⟨lowerBound l key, h⟩) = true := by
    rw [List.get_eq_getElem]
    exact List.findIdx_getElem (w := h)
  simpa using htrue

theorem lowerBound_le_of_key_le {l : List (KeyValuePair KEY VALUE)} {key : KEY} {j : Nat}
    (hj : j < l.length) (h : key ≤ (l.get ⟨j, hj⟩).key) : lowerBound l key ≤ j := by
  by_contra hlt
  push_neg at hlt
  exact absurd h (not_le.mpr (key_lt_of_lt_lowerBound hj hlt))

theorem lowerBound_hit_of_mem {l : List (KeyValuePair KEY VALUE)} {key : KEY}
    (hs : sortedByKey l) (hmem : ∃ p ∈ l, p.key = key) :
    ∃ p, l[lowerBound l key]? = some p ∧ p.key = key := by
  obtain ⟨p, hp, hkey⟩ := hmem
  obtain ⟨⟨j, hj⟩, rfl⟩ := List.mem_iff_get.mp hp
  have hle : lowerBound l key ≤ j := lowerBound_le_of_key_le hj (le_of_eq hkey.symm)
  have hlt : lowerBound l key < l.length := lt_of_le_of_lt hle hj
  refine ⟨l.get ⟨lowerBound l key, hlt⟩, ?_, ?_⟩
  · rw [List.get_eq_getElem]
    exact List.getElem?_eq_getElem hlt
  · have h1 : key ≤ (l.get ⟨lowerBound l key, hlt⟩).key := le_key_at_lowerBound hlt
    have h2 : (l.get ⟨lowerBound l key, hlt⟩).key ≤ (l.get ⟨j, hj⟩).key := by
      rcases eq_or_lt_of_le hle with heq | hltj
      · simp [heq]
      · exact List.pairwise_iff_get.mp hs _ _ hltj
    exact le_antisymm (hkey ▸ h2) h1

theorem insertAt_elems {T : Type} {b b' : elementBuffer T} {idx : Nat} {elm : T}
    (h : b.insertAt idx elm = some b') :
    b'.elems = b.elems.insertIdx idx elm ∧ idx ≤ b.elems.length := by
  unfold elementBuffer.insertAt at h
  split at h
  · rename_i hguard
    split at h <;> exact ⟨by injection h with h'; rw [h'.symm], hguard.1⟩
  · exact absurd h (by simp)

theorem insertAt_isSome {T : Type} {b : elementBuffer T} {idx : Nat} {elm : T}
    (h1 : idx ≤ b.elems.length) (h2 : 0 < b.spare) :
    ∃ b', b.insertAt idx elm = some b' := by
  unfold elementBuffer.insertAt
  have hg : idx ≤ b.elems.length ∧ 0 < b.frontSpare + b.backSpare := ⟨h1, h2⟩
  rw [if_pos hg]
  split <;> exact ⟨_, rfl⟩

theorem eraseAt_elems {T : Type} {b b' : elementBuffer T} {idx : Nat}
    (h : b.eraseAt idx = some b') :
    b'.elems = b.elems.eraseIdx idx ∧ idx < b.elems.length := by
  unfold elementBuffer.eraseAt at h
  split at h
  · rename_i hguard
    split at h <;> exact ⟨by injection h with h'; rw [h'.symm], hguard⟩
  · exact absurd h (by simp)

theorem eraseAt_isSome {T : Type} {b : elementBuffer T} {idx : Nat}
    (h : idx < b.elems.length) : ∃ b', b.eraseAt idx = some b' := by
  unfold elementBuffer.eraseAt
  rw [if_pos h]
  split <;> exact ⟨_, rfl⟩

theorem adjustCapacity_fields {m m' : Map KEY VALUE} {n : Nat}
    (h : m.adjustCapacity n = some m') :
    m'.buffer.elems = m.buffer.elems ∧
    m'.buffer.frontSpare = (n - m.buffer.size) / 2 ∧
    m'.buffer.capacity = n ∧
    m'.minGrow = m.minGrow ∧ m'.maxGrow = m.maxGrow ∧ m'.inBulkMode = m.inBulkMode ∧
    m.buffer.size ≤ n := by
  unfold Map.adjustCapacity elementBuffer.alloc at h
  split at h
  · rename_i hle
    have hsz : m.buffer.size = m.buffer.elems.length := rfl
    have hfit : (n - m.buffer.size) / 2 + m.buffer.elems.length ≤ n := by
      have hdiv : (n - m.buffer.elems.length) / 2 ≤ n - m.buffer.elems.length :=
        Nat.div_le_self _ _
      rw [hsz] at hle ⊢
      omega
    rw [if_pos hfit, Option.map_some'] at h
    injection h with h'
    subst h'
    refine ⟨rfl, rfl, ?_, rfl, rfl, rfl, hle⟩
    simp only [elementBuffer.capacity]
    rw [hsz] at hfit
    omega
  · exact absurd h (by simp)

theorem growByOf_eq_clamped {m : Map KEY VALUE} (h : m.minGrow ≤ m.maxGrow) :
    m.growByOf = clampedGrowBy m := by
  unfold Map.growByOf clampedGrowBy
  simp only [max_def, min_def]
  split_ifs <;> omega

theorem grow_some_fields {m m' : Map KEY VALUE} (h : m.grow = some m') :
    m'.buffer.elems = m.buffer.elems ∧ m'.minGrow = m.minGrow ∧ m'.maxGrow = m.maxGrow ∧
    m'.inBulkMode = m.inBulkMode ∧ 0 < m'.buffer.spare ∧
    (m'.buffer.capacity : Int) = (m.buffer.capacity : Int) + m.growByOf ∧
    m'.buffer.frontSpare = (m'.buffer.capacity - m.buffer.size) / 2 ∧
    0 < m.growByOf := by
  unfold Map.grow at h
  split at h
  · rename_i hpos
    obtain ⟨he, hfs, hcap, hmin, hmax, hmode, hle⟩ := adjustCapacity_fields h
    have hlen : m'.buffer.elems.length = m.buffer.elems.length := congrArg List.length he
    have hcap' : (m'.buffer.capacity : Int) = (m.buffer.capacity : Int) + m.growByOf := by
      rw [hcap]; omega
    refine ⟨he, hmin, hmax, hmode, ?_, hcap', ?_, hpos⟩
    · have hsize : m.buffer.elems.length ≤ m.buffer.capacity := by
        simp only [elementBuffer.capacity]; omega
      simp only [elementBuffer.spare]
      have hc' : m'.buffer.frontSpare + m'.buffer.elems.length + m'.buffer.backSpare =
          m'.buffer.capacity := rfl
      omega
    · rw [hfs, hcap]
  · exact absurd h (by simp)

theorem adjustCapacity_isSome {m : Map KEY VALUE} {n : Nat} (h : m.buffer.size ≤ n) :
    ∃ m', m.adjustCapacity n = some m' := by
  unfold Map.adjustCapacity elementBuffer.alloc
  rw [if_pos h]
  have hsz : m.buffer.size = m.buffer.elems.length := rfl
  have hdiv := Nat.div_le_self (n - m.buffer.size) 2
  have hfit : (n - m.buffer.size) / 2 + m.buffer.elems.length ≤ n := by omega
  rw [if_pos hfit]
  exact ⟨_, rfl⟩

theorem grow_eq_none_of_nonpos {m : Map KEY VALUE} (h : m.growByOf ≤ 0) : m.grow = none := by
  unfold Map.grow
  rw [if_neg (by omega)]

theorem grow_isSome_of_pos {m : Map KEY VALUE} (h : 0 < m.growByOf) :
    ∃ m', m.grow = some m' := by
  unfold Map.grow
  rw [if_pos h]
  refine adjustCapacity_isSome ?_
  have hsz : m.buffer.size ≤ m.buffer.capacity := by
    simp only [elementBuffer.size, elementBuffer.capacity]; omega
  omega

theorem Insert_some_elems {m m' : Map KEY VALUE} {kvp : KeyValuePair KEY VALUE}
    (h : m.Insert kvp = some m') :
    m'.buffer.elems = m.buffer.elems.insertIdx (lowerBound m.buffer.elems kvp.key) kvp ∧
    m.inBulkMode = false ∧ m'.inBulkMode = false ∧
    m'.minGrow = m.minGrow ∧ m'.maxGrow = m.maxGrow := by
  unfold Map.Insert at h
  split at h
  · exact absurd h (by simp)
  · rename_i hmode
    split at h
    · exact absurd h (by simp)
    · rename_i m1 hm1
      split at h
      · exact absurd h (by simp)
      · rename_i b hbuf
        injection h with h'
        subst h'
        have hm1f : m1.buffer.elems = m.buffer.elems ∧ m1.inBulkMode = m.inBulkMode ∧
            m1.minGrow = m.minGrow ∧ m1.maxGrow = m.maxGrow := by
          split at hm1
          · obtain ⟨he, hmin, hmax, hmd, _⟩ := grow_some_fields hm1
            exact ⟨he, hmd, hmin, hmax⟩
          · injection hm1 with h'
            subst h'
            exact ⟨rfl, rfl, rfl, rfl⟩
        obtain ⟨he1, hmd1, hmin1, hmax1⟩ := hm1f
        obtain ⟨hbe, _⟩ := insertAt_elems hbuf
        rw [he1] at hbe
        exact ⟨hbe, by simpa using hmode, by simpa [hmd1] using hmode, hmin1, hmax1⟩

theorem any_at_lowerBound_iff_mem {l : List (KeyValuePair KEY VALUE)} {key : KEY}
    (hs : sortedByKey l) :
    ((l[lowerBound l key]?).any fun p => decide (p.key = key)) = true ↔
      ∃ p ∈ l, p.key = key := by
  constructor
  · intro h
    cases hq : l[lowerBound l key]? with
    | none => rw [hq] at h; simp at h
    | some p =>
      rw [hq] at h
      simp only [Option.any_some, decide_eq_true_eq] at h
      exact ⟨p, List.getElem?_mem hq, h⟩
  · intro hmem
    obtain ⟨p, hq, hp⟩ := lowerBound_hit_of_mem hs hmem
    rw [hq]
    simp [hp]

theorem InsertUnique_some {m m' : Map KEY VALUE} {kvp : KeyValuePair KEY VALUE} {flag : Bool}
    (h : m.InsertUnique kvp = some (flag, m')) :
    m.inBulkMode = false ∧ m'.inBulkMode = false ∧
    m'.minGrow = m.minGrow ∧ m'.maxGrow = m.maxGrow ∧
    ((flag = false ∧ m'.buffer.elems = m.buffer.elems ∧
        ((m.buffer.elems[lowerBound m.buffer.elems kvp.key]?).any
          fun p => decide (p.key = kvp.key)) = true) ∨
     (flag = true ∧
        m'.buffer.elems = m.buffer.elems.insertIdx (lowerBound m.buffer.elems kvp.key) kvp ∧
        ((m.buffer.elems[lowerBound m.buffer.elems kvp.key]?).any
          fun p => decide (p.key = kvp.key)) = false)) := by
  unfold Map.InsertUnique at h
  split at h
  · exact absurd h (by simp)
  · rename_i hmode
    split at h
    · exact absurd h (by simp)
    · rename_i m1 hm1
      have hm1f : m1.buffer.elems = m.buffer.elems ∧ m1.inBulkMode = m.inBulkMode ∧
          m1.minGrow = m.minGrow ∧ m1.maxGrow = m.maxGrow := by
        split at hm1
        · obtain ⟨he, hmin, hmax, hmd, _⟩ := grow_some_fields hm1
          exact ⟨he, hmd, hmin, hmax⟩
        · injection hm1 with h'
          subst h'
          exact ⟨rfl, rfl, rfl, rfl⟩
      obtain ⟨he1, hmd1, hmin1, hmax1⟩ := hm1f
      split at h
      · rename_i hcond
        injection h with h'
        rw [Prod.mk.injEq] at h'
        obtain ⟨hflag, hm'⟩ := h'
        subst hm'
        refine ⟨by simpa using hmode, by simpa [hmd1] using hmode, hmin1, hmax1, Or.inl ?_⟩
        rw [he1] at hcond
        exact ⟨hflag.symm, he1, hcond⟩
      · rename_i hcond
        split at h
        · exact absurd h (by simp)
        · rename_i b hbuf
          injection h with h'
          rw [Prod.mk.injEq] at h'
          obtain ⟨hflag, hm'⟩ := h'
          subst hm'
          obtain ⟨hbe, _⟩ := insertAt_elems hbuf
          rw [he1] at hbe hcond
          exact ⟨by simpa using hmode, by simpa [hmd1] using hmode, hmin1, hmax1,
            Or.inr ⟨hflag.symm, hbe, by simpa using hcond⟩⟩

theorem InsertBulk_some {m m' : Map KEY VALUE} {kvp : KeyValuePair KEY VALUE}
    (h : m.InsertBulk kvp = some m') :
    m.inBulkMode = true ∧ m'.inBulkMode = true ∧
    (m'.buffer.elems : Multiset (KeyValuePair KEY VALUE)) =
      kvp ::ₘ (m.buffer.elems : Multiset (KeyValuePair KEY VALUE)) := by
  unfold Map.InsertBulk at h
  split at h
  · exact absurd h (by simp)
  · rename_i hmode
    rw [Bool.not_eq_false] at hmode
    split at h
    · exact absurd h (by simp)
    · rename_i m1 hm1
      have hm1f : m1.buffer.elems = m.buffer.elems ∧ m1.inBulkMode = m.inBulkMode := by
        split at hm1
        · obtain ⟨he, _, _, hmd, _⟩ := grow_some_fields hm1
          exact ⟨he, hmd⟩
        · injection hm1 with h'
          subst h'
          exact ⟨rfl, rfl⟩
      obtain ⟨he1, hmd1⟩ := hm1f
      split at h
      · split at h
        · exact absurd h (by simp)
        · rename_i b hbuf
          injection h with h'
          subst h'
          obtain ⟨hbe, _⟩ := insertAt_elems hbuf
          rw [he1, List.insertIdx_zero] at hbe
          exact ⟨hmode, by rw [hmd1]; exact hmode, by rw [hbe, Multiset.cons_coe]⟩
      · split at h
        · exact absurd h (by simp)
        · rename_i b hbuf
          injection h with h'
          subst h'
          obtain ⟨hbe, hle⟩ := insertAt_elems hbuf
          refine ⟨hmode, by rw [hmd1]; exact hmode, ?_⟩
          rw [hbe, he1]
          have hperm := List.perm_insertIdx kvp m.buffer.elems
            (n := m1.buffer.size)
            (by rw [show m1.buffer.size = m1.buffer.elems.length from rfl, he1])
          rw [Multiset.cons_coe]
          exact Multiset.coe_eq_coe.mpr hperm

theorem EndBulk_some {m m' : Map KEY VALUE} (h : m.EndBulk = some m') :
    m.inBulkMode = true ∧ m'.inBulkMode = false ∧
    (m'.buffer.elems : Multiset (KeyValuePair KEY VALUE)) =
      (m.buffer.elems : Multiset (KeyValuePair KEY VALUE)) ∧
    sortedByKey m'.buffer.elems := by
  unfold Map.EndBulk at h
  split at h
  · exact absurd h (by simp)
  · rename_i hmode
    rw [Bool.not_eq_false] at hmode
    injection h with h'
    subst h'
    refine ⟨hmode, rfl, ?_, ?_⟩
    · exact Multiset.coe_eq_coe.mpr (List.perm_insertionSort _ _)
    · exact List.sorted_insertionSort _ _

theorem sorted_insertIdx_lowerBound {l : List (KeyValuePair KEY VALUE)}
    (hs : sortedByKey l) (kvp : KeyValuePair KEY VALUE) :
    sortedByKey (l.insertIdx (lowerBound l kvp.key) kvp) := by
  induction l with
  | nil =>
    simp [lowerBound, sortedByKey]
  | cons a t ih =>
    have hs' := hs
    rw [sortedByKey, List.sorted_cons] at hs'
    by_cases hk : kvp.key ≤ a.key
    · have hlb : lowerBound (a :: t) kvp.key = 0 := by
        simp [lowerBound, List.findIdx_cons, hk]
      rw [hlb, List.insertIdx_zero, sortedByKey, List.sorted_cons]
      refine ⟨?_, hs⟩
      intro b hb
      rcases List.mem_cons.mp hb with rfl | hbt
      · exact hk
      · exact le_trans hk (hs'.1 b hbt)
    · have hlb : lowerBound (a :: t) kvp.key = lowerBound t kvp.key + 1 := by
        simp [lowerBound, List.findIdx_cons, hk]
      rw [hlb, List.insertIdx_succ_cons, sortedByKey, List.sorted_cons]
      refine ⟨?_, ih hs'.2⟩
      intro b hb
      rcases (List.mem_insertIdx (lowerBound_le_length t kvp.key)).mp hb with rfl | hbt
      · exact le_of_lt (not_le.mp hk)
      · exact hs'.1 b hbt

theorem dropWhile_eq_filter_of_all_ge {t : List (KeyValuePair KEY VALUE)} {key : KEY}
    (hs : sortedByKey t) (hge : ∀ p ∈ t, key ≤ p.key) :
    (t.dropWhile fun p => decide (p.key = key)) = t.filter fun p => decide (¬ p.key = key) := by
  induction t with
  | nil => simp
  | cons a t ih =>
    have hs' := hs
    rw [sortedByKey, List.sorted_cons] at hs'
    by_cases ha : a.key = key
    · rw [List.dropWhile_cons_of_pos (by simp [ha]), List.filter_cons_of_neg (by simp [ha])]
      exact ih hs'.2 fun p hp => hge p (List.mem_cons_of_mem a hp)
    · rw [List.dropWhile_cons_of_neg (by simp [ha]), List.filter_cons_of_pos (by simp [ha])]
      have hkey_lt : key < a.key :=
        lt_of_le_of_ne (hge a (List.mem_cons_self a t)) fun h => ha h.symm
      have : t.filter (fun p => decide (¬ p.key = key)) = t := by
        rw [List.filter_eq_self]
        intro p hp
        have : key < p.key := lt_of_lt_of_le hkey_lt (hs'.1 p hp)
        simp [ne_of_gt this]
      rw [this]

theorem erased_eq_filter {l : List (KeyValuePair KEY VALUE)} (hs : sortedByKey l) (key : KEY) :
    l.take (lowerBound l key) ++
        ((l.drop (lowerBound l key)).dropWhile fun p => decide (p.key = key))
      = l.filter fun p => decide (¬ p.key = key) := by
  induction l with
  | nil => simp
  | cons a t ih =>
    have hs' := hs
    rw [sortedByKey, List.sorted_cons] at hs'
    by_cases hk : key ≤ a.key
    · have hlb : lowerBound (a :: t) key = 0 := by
        simp [lowerBound, List.findIdx_cons, hk]
      rw [hlb]
      simp only [List.take_zero, List.drop_zero, List.nil_append]
      refine dropWhile_eq_filter_of_all_ge hs ?_
      intro p hp
      rcases List.mem_cons.mp hp with rfl | hpt
      · exact hk
      · exact le_trans hk (hs'.1 p hpt)
    · have hlb : lowerBound (a :: t) key = lowerBound t key + 1 := by
        simp [lowerBound, List.findIdx_cons, hk]
      have ha : ¬ a.key = key := fun h => hk (le_of_eq h.symm)
      rw [hlb, List.take_succ_cons, List.drop_succ_cons, List.cons_append,
        List.filter_cons_of_pos (by simp [ha])]
      rw [ih hs'.2]

theorem eraseLoop_spec (fuel : Nat) :
    ∀ (b : elementBuffer (KeyValuePair KEY VALUE)) (idx : Nat) (key : KEY),
    b.elems.length ≤ fuel →
    ∃ b', Map.eraseLoop fuel b idx key = some b' ∧
      b'.elems = b.elems.take idx ++
        ((b.elems.drop idx).dropWhile fun p => decide (p.key = key)) ∧
      b'.elems.length ≤ b.elems.length := by
  induction fuel with
  | zero =>
    intro b idx key hfuel
    have hnil : b.elems = [] := List.eq_nil_of_length_eq_zero (Nat.le_zero.mp hfuel)
    refine ⟨b, rfl, ?_, le_refl _⟩
    rw [hnil]
    simp
  | succ fuel ih =>
    intro b idx key hfuel
    unfold Map.eraseLoop
    by_cases hcond : ((b.elems[idx]?).any fun p => decide (p.key = key)) = true
    · rw [if_pos hcond]
      obtain ⟨p, hq, hp⟩ : ∃ p, b.elems[idx]? = some p ∧ p.key = key := by
        cases hq : b.elems[idx]? with
        | none => rw [hq] at hcond; simp at hcond
        | some p =>
          rw [hq] at hcond
          simp only [Option.any_some, decide_eq_true_eq] at hcond
          exact ⟨p, rfl, hcond⟩
      obtain ⟨hidx, hget⟩ := List.getElem?_eq_some.mp hq
      obtain ⟨b1, hb1⟩ := eraseAt_isSome hidx
      rw [hb1]
      obtain ⟨hb1e, _⟩ := eraseAt_elems hb1
      have hlen1 : b1.elems.length = b.elems.length - 1 := by
        rw [hb1e]
        simp [List.length_eraseIdx, hidx]
      obtain ⟨b', hloop, hbe', hlen'⟩ := ih b1 idx key (by omega)
      refine ⟨b', hloop, ?_, by omega⟩
      rw [hbe']
      have hsplit : b1.elems = b.elems.take idx ++ b.elems.drop (idx + 1) := by
        rw [hb1e, List.eraseIdx_eq_take_drop_succ]
      have hlt : (b.elems.take idx).length = idx := by
        rw [List.length_take]
        omega
      have htake : b1.elems.take idx = b.elems.take idx := by
        rw [hsplit, List.take_left' hlt]
      have hdrop : b1.elems.drop idx = b.elems.drop (idx + 1) := by
        rw [hsplit, List.drop_left' hlt]
      rw [htake, hdrop]
      have hdcons : b.elems.drop idx = p :: b.elems.drop (idx + 1) := by
        rw [List.drop_eq_getElem_cons hidx, hget]
      rw [hdcons, List.dropWhile_cons_of_pos (by simp [hp])]
    · rw [if_neg hcond]
      refine ⟨b, rfl, ?_, le_refl _⟩
      by_cases hidx : idx < b.elems.length
      · have hget := List.getElem?_eq_getElem hidx
        have hpkey : ¬ (b.elems[idx].key = key) := by
          intro hcontra
          apply hcond
          rw [hget]
          simp [hcontra]
        have hdcons := List.drop_eq_getElem_cons hidx
        rw [hdcons, List.dropWhile_cons_of_neg (by simp [hpkey]), ← hdcons,
          List.take_append_drop]
      · push_neg at hidx
        rw [List.take_of_length_le hidx, List.drop_eq_nil_of_le hidx]
        simp

theorem Erase_spec (m : Map KEY VALUE) (key : KEY) :
    ∃ m', m.Erase key = some m' ∧
      m'.buffer.elems = m.buffer.elems.take (lowerBound m.buffer.elems key) ++
        ((m.buffer.elems.drop (lowerBound m.buffer.elems key)).dropWhile
          fun p => decide (p.key = key)) ∧
      m'.minGrow = m.minGrow ∧ m'.maxGrow = m.maxGrow ∧ m'.inBulkMode = m.inBulkMode := by
  unfold Map.Erase
  by_cases hlb : lowerBound m.buffer.elems key < m.buffer.elems.length
  · rw [if_pos hlb]
    obtain ⟨b', hloop, hbe', _⟩ :=
      eraseLoop_spec m.buffer.elems.length m.buffer
        (lowerBound m.buffer.elems key) key (le_refl _)
    rw [hloop]
    exact ⟨_, rfl, hbe', rfl, rfl, rfl⟩
  · rw [if_neg hlb]
    push_neg at hlb
    refine ⟨m, rfl, ?_, rfl, rfl, rfl⟩
    rw [List.take_of_length_le hlb, List.drop_eq_nil_of_le hlb]
    simp

theorem Contains_eq_false_of_absent {m : Map KEY VALUE} {key : KEY}
    (hb : m.inBulkMode = false)
    (habs : ∀ p ∈ m.buffer.elems, p.key ≠ key) : m.Contains key = some false := by
  unfold Map.Contains
  rw [if_neg (by simp [hb])]
  cases hq : m.buffer.elems[lowerBound m.buffer.elems key]? with
  | none => rfl
  | some p =>
    have hp := List.getElem?_mem hq
    obtain ⟨hlt, hget⟩ := List.getElem?_eq_some.mp hq
    have hle : key ≤ p.key := by
      have hlow := le_key_at_lowerBound hlt
      rw [List.get_eq_getElem, hget] at hlow
      exact hlow
    have hklt : key < p.key := lt_of_le_of_ne hle fun h => habs p hp h.symm
    simp [hklt]

theorem FindIndex_eq_invalid_of_absent {m : Map KEY VALUE} {key : KEY}
    (hb : m.inBulkMode = false)
    (habs : ∀ p ∈ m.buffer.elems, p.key ≠ key) : m.FindIndex key = some InvalidIndex := by
  unfold Map.FindIndex
  rw [if_neg (by simp [hb])]
  cases hq : m.buffer.elems[lowerBound m.buffer.elems key]? with
  | none => rfl
  | some p =>
    have hp := List.getElem?_mem hq
    dsimp only
    rw [if_neg fun h => habs p hp h.symm]

theorem applyOp_preserves {m m' : Map KEY VALUE} {op : MapOp KEY VALUE}
    (hb : m.inBulkMode = false) (hs : sortedByKey m.buffer.elems)
    (h : applyOp m op = some m') :
    m'.inBulkMode = false ∧ sortedByKey m'.buffer.elems := by
  cases op with
  | ins kvp =>
    simp only [applyOp] at h
    obtain ⟨he, _, hmode, _, _⟩ := Insert_some_elems h
    exact ⟨hmode, by rw [he]; exact sorted_insertIdx_lowerBound hs kvp⟩
  | insUnique kvp =>
    simp only [applyOp] at h
    rw [Option.map_eq_some'] at h
    obtain ⟨a, hiu, hm2⟩ := h
    cases a with
    | mk flag m2 =>
      obtain ⟨_, hmode, _, _, hcases⟩ := InsertUnique_some hiu
      have hm2' : m2 = m' := hm2
      subst hm2'
      rcases hcases with ⟨_, he, _⟩ | ⟨_, he, _⟩
      · exact ⟨hmode, by rw [he]; exact hs⟩
      · exact ⟨hmode, by rw [he]; exact sorted_insertIdx_lowerBound hs kvp⟩
  | erase key =>
    simp only [applyOp] at h
    obtain ⟨m2, he2, hbe, _, _, hmd⟩ := Erase_spec m key
    rw [he2] at h
    injection h with h'
    subst h'
    refine ⟨by rw [hmd]; exact hb, ?_⟩
    rw [show sortedByKey m2.buffer.elems =
      sortedByKey (m.buffer.elems.take (lowerBound m.buffer.elems key) ++
        ((m.buffer.elems.drop (lowerBound m.buffer.elems key)).dropWhile
          fun p => decide (p.key = key))) from congrArg _ hbe]
    rw [erased_eq_filter hs key]
    exact List.Pairwise.filter _ hs

theorem runOps_preserves {ops : List (MapOp KEY VALUE)} :
    ∀ {m m' : Map KEY VALUE},
    m.inBulkMode = false → sortedByKey m.buffer.elems → runOps m ops = some m' →
    m'.inBulkMode = false ∧ sortedByKey m'.buffer.elems := by
  induction ops with
  | nil =>
    intro m m' hb hs h
    simp only [runOps, List.foldlM_nil] at h
    injection h with h'
    subst h'
    exact ⟨hb, hs⟩
  | cons op ops ih =>
    intro m m' hb hs h
    rw [runOps, List.foldlM_cons] at h
    cases h1 : applyOp m op with
    | none => rw [h1] at h; exact absurd h (by simp)
    | some m1 =>
      rw [h1] at h
      obtain ⟨hb1, hs1⟩ := applyOp_preserves hb hs h1
      exact ih hb1 hs1 h

theorem insertAll_spec {ps : List (KeyValuePair KEY VALUE)} :
    ∀ {m m' : Map KEY VALUE}, insertAll m ps = some m' →
    ((m'.buffer.elems : Multiset (KeyValuePair KEY VALUE)) =
      (ps : Multiset (KeyValuePair KEY VALUE)) +
        (m.buffer.elems : Multiset (KeyValuePair KEY VALUE))) ∧
    (sortedByKey m.buffer.elems → sortedByKey m'.buffer.elems) := by
  induction ps with
  | nil =>
    intro m m' h
    simp only [insertAll, List.foldlM_nil] at h
    injection h with h'
    subst h'
    simp
  | cons p ps ih =>
    intro m m' h
    rw [insertAll, List.foldlM_cons] at h
    cases h1 : m.Insert p with
    | none => rw [h1] at h; exact absurd h (by simp)
    | some m1 =>
      rw [h1] at h
      obtain ⟨he, _, _, _, _⟩ := Insert_some_elems h1
      obtain ⟨hms, hsort⟩ := ih (m := m1) h
      constructor
      · have h1m : (m1.buffer.elems : Multiset (KeyValuePair KEY VALUE)) =
            p ::ₘ (m.buffer.elems : Multiset (KeyValuePair KEY VALUE)) := by
          rw [he, Multiset.cons_coe]
          exact Multiset.coe_eq_coe.mpr
            (List.perm_insertIdx p m.buffer.elems (lowerBound_le_length _ _))
        rw [hms, h1m, ← Multiset.cons_coe]
        simp [Multiset.add_cons, Multiset.cons_add]
      · intro hsm
        exact hsort (by rw [he]; exact sorted_insertIdx_lowerBound hsm p)

theorem insertBulkAll_spec {ps : List (KeyValuePair KEY VALUE)} :
    ∀ {m m' : Map KEY VALUE}, insertBulkAll m ps = some m' →
    ((m'.buffer.elems : Multiset (KeyValuePair KEY VALUE)) =
      (ps : Multiset (KeyValuePair KEY VALUE)) +
        (m.buffer.elems : Multiset (KeyValuePair KEY VALUE))) ∧
    m'.inBulkMode = m.inBulkMode := by
  induction ps with
  | nil =>
    intro m m' h
    simp only [insertBulkAll, List.foldlM_nil] at h
    injection h with h'
    subst h'
    simp
  | cons p ps ih =>
    intro m m' h
    rw [insertBulkAll, List.foldlM_cons] at h
    cases h1 : m.InsertBulk p with
    | none => rw [h1] at h; exact absurd h (by simp)
    | some m1 =>
      rw [h1] at h
      obtain ⟨hmode, hmode1, h1m⟩ := InsertBulk_some h1
      obtain ⟨hms, hmd⟩ := ih (m := m1) h
      constructor
      · rw [hms, h1m, ← Multiset.cons_coe]
        simp [Multiset.add_cons, Multiset.cons_add]
      · rw [hmd, hmode1, hmode]

end Lemmas

section Claims

/-- C1: for every sequence of Insert, InsertUnique and Erase calls performed in
Normal mode starting from an empty map, the live range is non-decreasing by key
after every call.  The call sequence is quantified, so every prefix of a longer
sequence — i.e. the state after every call — is covered. -/
theorem C1_sort_invariant {KEY VALUE : Type} [LinearOrder KEY] (minG maxG : Int)
    (ops : List (MapOp KEY VALUE)) (m : Map KEY VALUE)
    (h : runOps (mkMap minG maxG) ops = some m) :
    sortedByKey m.buffer.elems :=
  (runOps_preserves rfl (by simp [mkMap, sortedByKey]) h).2

/-- C1 witness: running insert 1, insert 0, erase 1 from an empty map; the
resulting live range is sorted. -/
theorem C1_witness :
    sortedByKey ((⟨⟨1, [⟨0, 5⟩], 2⟩, 4, 16, false⟩ : Map Int Int).buffer.elems) :=
  C1_sort_invariant 4 16 [MapOp.ins ⟨1, 10⟩, MapOp.ins ⟨0, 5⟩, MapOp.erase 1]
    ⟨⟨1, [⟨0, 5⟩], 2⟩, 4, 16, false⟩ (by decide)

/-- C2: BeginBulk, a sequence of InsertBulk calls, then EndBulk yields the same
final multiset of pairs, sorted by key, as performing the equivalent Insert
calls directly in Normal mode, regardless of the insertion order used during
bulk mode (qs is any permutation of ps). -/
theorem C2_bulk_roundtrip {KEY VALUE : Type} [LinearOrder KEY] (minG maxG : Int)
    (ps qs : List (KeyValuePair KEY VALUE)) (mb mn : Map KEY VALUE)
    (hperm : qs.Perm ps)
    (hb : ((mkMap minG maxG : Map KEY VALUE).BeginBulk.bind fun m0 =>
        (insertBulkAll m0 qs).bind Map.EndBulk) = some mb)
    (hn : insertAll (mkMap minG maxG) ps = some mn) :
    (mb.buffer.elems : Multiset (KeyValuePair KEY VALUE)) =
      (mn.buffer.elems : Multiset (KeyValuePair KEY VALUE)) ∧
    sortedByKey mb.buffer.elems ∧ sortedByKey mn.buffer.elems := by
  rw [Option.bind_eq_some] at hb
  obtain ⟨m0, hm0, hb⟩ := hb
  rw [Option.bind_eq_some] at hb
  obtain ⟨m1, hm1, hb⟩ := hb
  have hm0' : m0 = ⟨⟨0, [], 0⟩, minG, maxG, true⟩ := by
    unfold Map.BeginBulk mkMap at hm0
    rw [if_neg (by simp)] at hm0
    injection hm0 with h'
    exact h'.symm
  subst hm0'
  obtain ⟨hms1, hmd1⟩ := insertBulkAll_spec hm1
  obtain ⟨_, _, hms2, hsorted⟩ := EndBulk_some hb
  obtain ⟨hmsn, hsortn⟩ := insertAll_spec hn
  refine ⟨?_, hsorted, hsortn (by simp [mkMap, sortedByKey])⟩
  rw [hms2, hms1, hmsn]
  simp only [mkMap]
  rw [Multiset.coe_eq_coe.mpr hperm]

/-- C2 witness: bulk-loading (1,10),(2,20) and plain-inserting (2,20),(1,10)
both end with live range (1,10),(2,20); the multisets agree and both runs are
sorted. -/
theorem C2_witness :
    ((⟨⟨1, [⟨1, 10⟩, ⟨2, 20⟩], 1⟩, 4, 16, false⟩ : Map Int Int).buffer.elems :
        Multiset (KeyValuePair Int Int)) =
      ((⟨⟨1, [⟨1, 10⟩, ⟨2, 20⟩], 1⟩, 4, 16, false⟩ : Map Int Int).buffer.elems :
        Multiset (KeyValuePair Int Int)) ∧
    sortedByKey ((⟨⟨1, [⟨1, 10⟩, ⟨2, 20⟩], 1⟩, 4, 16, false⟩ : Map Int Int).buffer.elems) ∧
    sortedByKey ((⟨⟨1, [⟨1, 10⟩, ⟨2, 20⟩], 1⟩, 4, 16, false⟩ : Map Int Int).buffer.elems) :=
  C2_bulk_roundtrip 4 16 [⟨2, 20⟩, ⟨1, 10⟩] [⟨1, 10⟩, ⟨2, 20⟩]
    ⟨⟨1, [⟨1, 10⟩, ⟨2, 20⟩], 1⟩, 4, 16, false⟩
    ⟨⟨1, [⟨1, 10⟩, ⟨2, 20⟩], 1⟩, 4, 16, false⟩
    (by decide) (by decide) (by decide)

/-- C3: the claim says the two-argument InsertBulk(key, value), called in Bulk
mode, inserts at the spare-heavier end without a contract violation.  The
source instead routes that overload through the non-bulk Insert, whose
o_assert(!inBulkMode) fires: on a fresh map put into Bulk mode the call is a
contract violation (none), while the one-argument bulk overload on the same
state succeeds — contradicting the overload's own doc comment
(insert element in bulk-mode). -/
theorem C3_insert_bulk_kv_asserts :
    ((mkMap 4 16 : Map Int Int).BeginBulk.bind fun m => m.InsertBulkKV 1 10) = none ∧
    ((mkMap 4 16 : Map Int Int).BeginBulk.bind fun m => m.InsertBulk ⟨1, 10⟩) =
      some ⟨⟨2, [⟨1, 10⟩], 1⟩, 4, 16, true⟩ := by decide

/-- C4 counterexample: a Bulk-mode map on which Erase executes normally (no
contract violation) and the unchecked index accessors also succeed, refuting
the claim that Erase, KeyAtIndex and ValueAtIndex fail by contract in Bulk
mode. -/
theorem C4_counterexample :
    ((⟨⟨1, [⟨1, 10⟩], 1⟩, 4, 16, true⟩ : Map Int Int).Erase 1).isSome = true ∧
    (⟨⟨1, [⟨1, 10⟩], 1⟩, 4, 16, true⟩ : Map Int Int).inBulkMode = true ∧
    (⟨⟨1, [⟨1, 10⟩], 1⟩, 4, 16, true⟩ : Map Int Int).KeyAtIndex 0 = some 1 ∧
    (⟨⟨1, [⟨1, 10⟩], 1⟩, 4, 16, true⟩ : Map Int Int).ValueAtIndex 0 = some 10 := by decide

/-- C4 (amended): Contains, operator[] lookup, Insert, InsertUnique, FindIndex
and FindDuplicate fail by contract when invoked in Bulk mode; Erase, KeyAtIndex
and ValueAtIndex perform no mode check — Erase always completes, and the index
accessors succeed at any in-range index. -/
theorem C4_mode_contract {KEY VALUE : Type} [LinearOrder KEY] (m : Map KEY VALUE)
    (key : KEY) (kvp : KeyValuePair KEY VALUE) (idx : Nat)
    (h : m.inBulkMode = true) :
    m.Contains key = none ∧ m.Lookup key = none ∧ m.Insert kvp = none ∧
    m.InsertUnique kvp = none ∧ m.FindIndex key = none ∧ m.FindDuplicate idx = none ∧
    (m.Erase key).isSome = true ∧
    (idx < m.buffer.elems.length →
      (m.KeyAtIndex idx).isSome = true ∧ (m.ValueAtIndex idx).isSome = true) := by
  refine ⟨?_, ?_, ?_, ?_, ?_, ?_, ?_, ?_⟩
  · simp [Map.Contains, h]
  · simp [Map.Lookup, h]
  · simp [Map.Insert, h]
  · simp [Map.InsertUnique, h]
  · simp [Map.FindIndex, h]
  · simp [Map.FindDuplicate, h]
  · obtain ⟨m2, he2, _⟩ := Erase_spec m key
    rw [he2]
    rfl
  · intro hidx
    constructor
    · simp [Map.KeyAtIndex, List.getElem?_eq_getElem hidx]
    · simp [Map.ValueAtIndex, List.getElem?_eq_getElem hidx]

/-- C4 witness: on a concrete Bulk-mode map the six checked operations are
contract violations while Erase completes. -/
theorem C4_witness :
    (⟨⟨1, [⟨2, 20⟩], 1⟩, 4, 16, true⟩ : Map Int Int).Contains 2 = none ∧
    (⟨⟨1, [⟨2, 20⟩], 1⟩, 4, 16, true⟩ : Map Int Int).Insert ⟨1, 10⟩ = none ∧
    ((⟨⟨1, [⟨2, 20⟩], 1⟩, 4, 16, true⟩ : Map Int Int).Erase 2).isSome = true := by
  have h := C4_mode_contract (⟨⟨1, [⟨2, 20⟩], 1⟩, 4, 16, true⟩ : Map Int Int) 2 ⟨1, 10⟩ 0 rfl
  exact ⟨h.1, h.2.2.1, h.2.2.2.2.2.2.1⟩

/-- C5: Insert in Normal mode places the new pair at the lower-bound position:
every element before that position has a strictly smaller key and every element
from that position on has a key not less than the inserted key, so a new
equal-key entry lands before all previously inserted entries with that key. -/
theorem C5_insert_at_lower_bound {KEY VALUE : Type} [LinearOrder KEY]
    (m : Map KEY VALUE) (kvp : KeyValuePair KEY VALUE) (m' : Map KEY VALUE)
    (hs : sortedByKey m.buffer.elems) (h : m.Insert kvp = some m') :
    m'.buffer.elems = m.buffer.elems.insertIdx (lowerBound m.buffer.elems kvp.key) kvp ∧
    (∀ j (hj : j < m.buffer.elems.length), j < lowerBound m.buffer.elems kvp.key →
      (m.buffer.elems.get ⟨j, hj⟩).key < kvp.key) ∧
    (∀ j (hj : j < m.buffer.elems.length), lowerBound m.buffer.elems kvp.key ≤ j →
      kvp.key ≤ (m.buffer.elems.get ⟨j, hj⟩).key) := by
  obtain ⟨he, _, _, _, _⟩ := Insert_some_elems h
  refine ⟨he, ?_, ?_⟩
  · intro j hj hjl
    exact key_lt_of_lt_lowerBound hj hjl
  · intro j hj hjl
    have hlb : lowerBound m.buffer.elems kvp.key < m.buffer.elems.length :=
      lt_of_le_of_lt hjl hj
    have h1 := le_key_at_lowerBound hlb
    rcases eq_or_lt_of_le hjl with heq | hlt
    · subst heq
      exact h1
    · exact le_trans h1 (List.pairwise_iff_get.mp hs _ _ hlt)

/-- C5 witness: inserting key 1 value 26 into a map already holding key 1
value 10 places the new pair at index 0 — before the earlier equal-key entry,
matching the spec's example order. -/
theorem C5_witness :
    (⟨⟨1, [⟨1, 26⟩, ⟨1, 10⟩], 1⟩, 4, 16, false⟩ : Map Int Int).buffer.elems =
      List.insertIdx (lowerBound ([⟨1, 10⟩] : List (KeyValuePair Int Int)) 1) ⟨1, 26⟩
        [⟨1, 10⟩] :=
  (C5_insert_at_lower_bound ⟨⟨2, [⟨1, 10⟩], 1⟩, 4, 16, false⟩ ⟨1, 26⟩
    ⟨⟨1, [⟨1, 26⟩, ⟨1, 10⟩], 1⟩, 4, 16, false⟩ (by decide) (by decide)).1

/-- C6 counterexample: with key 1 already present and no spare capacity, the
source grows the buffer before searching, so InsertUnique returns false yet
the map is not entirely unchanged — its capacity grew from 1 to 5. -/
theorem C6_counterexample :
    (⟨⟨0, [⟨1, 10⟩], 0⟩, 4, 16, false⟩ : Map Int Int).InsertUnique ⟨1, 99⟩ =
      some (false, ⟨⟨2, [⟨1, 10⟩], 2⟩, 4, 16, false⟩) ∧
    (⟨⟨2, [⟨1, 10⟩], 2⟩, 4, 16, false⟩ : Map Int Int).Capacity ≠
      (⟨⟨0, [⟨1, 10⟩], 0⟩, 4, 16, false⟩ : Map Int Int).Capacity := by decide

/-- C6 (amended): InsertUnique returns false iff an element with the key was
already present before the call; in that case the element sequence, growth
policy and mode flag are unchanged, but the buffer may still have been
reallocated (capacity can grow) because the source grows before searching;
when the key is absent it inserts at the lower-bound position and returns
true. -/
theorem C6_insert_unique {KEY VALUE : Type} [LinearOrder KEY]
    (m : Map KEY VALUE) (kvp : KeyValuePair KEY VALUE) (flag : Bool) (m' : Map KEY VALUE)
    (hs : sortedByKey m.buffer.elems) (h : m.InsertUnique kvp = some (flag, m')) :
    (flag = false ↔ ∃ p ∈ m.buffer.elems, p.key = kvp.key) ∧
    (flag = false → m'.buffer.elems = m.buffer.elems ∧ m'.minGrow = m.minGrow ∧
      m'.maxGrow = m.maxGrow ∧ m'.inBulkMode = m.inBulkMode) ∧
    (flag = true → m'.buffer.elems =
      m.buffer.elems.insertIdx (lowerBound m.buffer.elems kvp.key) kvp) := by
  obtain ⟨hmode, hmode', hmin, hmax, hcases⟩ := InsertUnique_some h
  rcases hcases with ⟨hf, he, hany⟩ | ⟨hf, he, hany⟩
  · subst hf
    refine ⟨⟨fun _ => (any_at_lowerBound_iff_mem hs).mp hany, fun _ => rfl⟩, ?_, ?_⟩
    · intro _
      exact ⟨he, hmin, hmax, by rw [hmode', hmode]⟩
    · intro hcontra
      exact absurd hcontra (by simp)
  · subst hf
    refine ⟨⟨fun hcontra => absurd hcontra (by simp), fun hmem => ?_⟩, ?_, ?_⟩
    · have htrue := (any_at_lowerBound_iff_mem hs).mpr hmem
      rw [htrue] at hany
      exact absurd hany (by simp)
    · intro hcontra
      exact absurd hcontra (by simp)
    · intro _
      exact he

/-- C6 witness: InsertUnique of an already-present key on a full buffer returns
false with the element sequence unchanged (even though capacity grew). -/
theorem C6_witness :
    (⟨⟨2, [⟨1, 10⟩], 2⟩, 4, 16, false⟩ : Map Int Int).buffer.elems =
      (⟨⟨0, [⟨1, 10⟩], 0⟩, 4, 16, false⟩ : Map Int Int).buffer.elems :=
  ((C6_insert_unique ⟨⟨0, [⟨1, 10⟩], 0⟩, 4, 16, false⟩ ⟨1, 99⟩ false
    ⟨⟨2, [⟨1, 10⟩], 2⟩, 4, 16, false⟩ (by decide) (by decide)).2.1 rfl).1

/-- C7: in Normal mode on a sorted map, Erase(k) removes exactly the elements
whose key equals k (however many duplicates) and retains every other element;
afterwards Contains(k) is false and FindIndex(k) returns the InvalidIndex
sentinel; when k is absent the map is unchanged. -/
theorem C7_erase_completeness {KEY VALUE : Type} [LinearOrder KEY]
    (m : Map KEY VALUE) (key : KEY) (m' : Map KEY VALUE)
    (hb : m.inBulkMode = false) (hs : sortedByKey m.buffer.elems)
    (h : m.Erase key = some m') :
    m'.buffer.elems = m.buffer.elems.filter (fun p => decide (¬ p.key = key)) ∧
    m'.Contains key = some false ∧
    m'.FindIndex key = some InvalidIndex ∧
    ((∀ p ∈ m.buffer.elems, p.key ≠ key) → m'.buffer.elems = m.buffer.elems) := by
  obtain ⟨m2, he2, hbe, _, _, hmd⟩ := Erase_spec m key
  rw [he2] at h
  injection h with h'
  subst h'
  have hfe : m2.buffer.elems = m.buffer.elems.filter fun p => decide (¬ p.key = key) := by
    rw [hbe, erased_eq_filter hs key]
  have hmd2 : m2.inBulkMode = false := by rw [hmd]; exact hb
  have habs : ∀ p ∈ m2.buffer.elems, p.key ≠ key := by
    intro p hp
    rw [hfe] at hp
    simpa using List.of_mem_filter hp
  refine ⟨hfe, Contains_eq_false_of_absent hmd2 habs,
    FindIndex_eq_invalid_of_absent hmd2 habs, ?_⟩
  intro hall
  rw [hfe]
  rw [List.filter_eq_self]
  intro p hp
  simpa using hall p hp

/-- C7 witness: erasing key 2 from (1,7),(2,8),(2,9),(3,6) removes both
duplicates; Contains and FindIndex report the key as absent afterwards. -/
theorem C7_witness :
    (⟨⟨2, [⟨1, 7⟩, ⟨3, 6⟩], 2⟩, 4, 16, false⟩ : Map Int Int).Contains 2 = some false ∧
    (⟨⟨2, [⟨1, 7⟩, ⟨3, 6⟩], 2⟩, 4, 16, false⟩ : Map Int Int).FindIndex 2 = some InvalidIndex := by
  have h := C7_erase_completeness
    ⟨⟨1, [⟨1, 7⟩, ⟨2, 8⟩, ⟨2, 9⟩, ⟨3, 6⟩], 1⟩, 4, 16, false⟩ 2
    ⟨⟨2, [⟨1, 7⟩, ⟨3, 6⟩], 2⟩, 4, 16, false⟩ (by decide) (by decide) (by decide)
  exact ⟨h.2.1, h.2.2.1⟩

/-- C8: grow computes growBy as capacity/2 clamped into [minGrow, maxGrow]
(the source's conditional equals that clamp whenever minGrow ≤ maxGrow), fails
by contract when the clamped amount is not positive, and otherwise reallocates
to capacity + growBy with the new front spare (newCapacity - size) / 2, the
elements unchanged. -/
theorem C8_grow_policy {KEY VALUE : Type} [LinearOrder KEY] (m : Map KEY VALUE)
    (h : m.minGrow ≤ m.maxGrow) :
    m.growByOf = clampedGrowBy m ∧
    (clampedGrowBy m ≤ 0 → m.grow = none) ∧
    (0 < clampedGrowBy m →
      (m.grow.map fun m1 => ((m1.buffer.capacity : Int), m1.buffer.frontSpare, m1.buffer.elems))
        = some ((m.buffer.capacity : Int) + clampedGrowBy m,
            (((m.buffer.capacity : Int) + clampedGrowBy m).toNat - m.buffer.size) / 2,
            m.buffer.elems)) := by
  have hclamp := growByOf_eq_clamped h
  refine ⟨hclamp, ?_, ?_⟩
  · intro hnp
    exact grow_eq_none_of_nonpos (by rw [hclamp]; exact hnp)
  · intro hpos
    obtain ⟨m1, hm1⟩ := grow_isSome_of_pos (by rw [hclamp]; exact hpos)
    obtain ⟨he, _, _, _, _, hcap, hfs, _⟩ := grow_some_fields hm1
    rw [hm1, Option.map_some']
    have hcapn : m1.buffer.capacity = ((m.buffer.capacity : Int) + m.growByOf).toNat := by
      omega
    simp only [Option.some.injEq, Prod.mk.injEq]
    refine ⟨?_, ?_, he⟩
    · rw [hcap, hclamp]
    · rw [hfs, hcapn, hclamp]

/-- C8 witness: with minGrow 4 and maxGrow 16, growing from capacity 20 yields
capacity 30 (front spare 15), and growing an empty default map from capacity 0
yields capacity 4 (front spare 2). -/
theorem C8_witness :
    ((⟨⟨10, [], 10⟩, 4, 16, false⟩ : Map Int Int).grow.map
        fun m1 => ((m1.buffer.capacity : Int), m1.buffer.frontSpare, m1.buffer.elems))
      = some (30, 15, []) ∧
    ((mkMap 4 16 : Map Int Int).grow.map
        fun m1 => ((m1.buffer.capacity : Int), m1.buffer.frontSpare, m1.buffer.elems))
      = some (4, 2, []) := by
  constructor
  · have h := (C8_grow_policy (⟨⟨10, [], 10⟩, 4, 16, false⟩ : Map Int Int) (by decide)).2.2
      (by decide)
    rw [h]
    decide
  · have h := (C8_grow_policy (mkMap 4 16 : Map Int Int) (by decide)).2.2 (by decide)
    rw [h]
    decide

/-- C9: when the key is present (possibly duplicated) FindIndex returns the
lower-bound index — the smallest index whose element has that key; every index
strictly below the returned one holds a different key; when the key is absent
it returns InvalidIndex. -/
theorem C9_find_index {KEY VALUE : Type} [LinearOrder KEY]
    (m : Map KEY VALUE) (key : KEY) (r : Int)
    (hs : sortedByKey m.buffer.elems) (h : m.FindIndex key = some r) :
    ((∃ p ∈ m.buffer.elems, p.key = key) →
      r = (lowerBound m.buffer.elems key : Int) ∧
      ∃ p, m.buffer.elems[r.toNat]? = some p ∧ p.key = key) ∧
    (∀ j : Nat, (j : Int) < r → ∀ p, m.buffer.elems[j]? = some p → p.key ≠ key) ∧
    ((∀ p ∈ m.buffer.elems, p.key ≠ key) → r = InvalidIndex) := by
  unfold Map.FindIndex at h
  split at h
  · exact absurd h (by simp)
  · injection h with h'
    cases hq : m.buffer.elems[lowerBound m.buffer.elems key]? with
    | none =>
      rw [hq] at h'
      dsimp only at h'
      subst h'
      refine ⟨?_, ?_, fun _ => rfl⟩
      · intro hmem
        obtain ⟨p, hq', _⟩ := lowerBound_hit_of_mem hs hmem
        rw [hq'] at hq
        exact absurd hq (by simp)
      · intro j hj p hp hkey
        have hnn : (0 : Int) ≤ (j : Int) := Int.ofNat_nonneg j
        rw [show InvalidIndex = (-1 : Int) from rfl] at hj
        omega
    | some p =>
      rw [hq] at h'
      dsimp only at h'
      by_cases hkp : key = p.key
      · rw [if_pos hkp] at h'
        subst h'
        refine ⟨?_, ?_, ?_⟩
        · intro _
          exact ⟨rfl, p, by simpa using hq, hkp.symm⟩
        · intro j hj q hjq
          have hjlt : j < lowerBound m.buffer.elems key := by
            omega
          obtain ⟨hjl, hget⟩ := List.getElem?_eq_some.mp hjq
          have := key_lt_of_lt_lowerBound hjl hjlt
          rw [List.get_eq_getElem, hget] at this
          exact ne_of_lt this
        · intro hall
          exact absurd (hkp ▸ rfl) (hall p (List.getElem?_mem hq))
      · rw [if_neg hkp] at h'
        subst h'
        refine ⟨?_, ?_, fun _ => rfl⟩
        · intro hmem
          obtain ⟨q, hq', hqk⟩ := lowerBound_hit_of_mem hs hmem
          rw [hq'] at hq
          injection hq with hq
          exact absurd (hq ▸ hqk).symm hkp
        · intro j hj q hjq hkey
          have hnn : (0 : Int) ≤ (j : Int) := Int.ofNat_nonneg j
          rw [show InvalidIndex = (-1 : Int) from rfl] at hj
          omega

/-- C9 witness: on (1,7),(2,8),(2,9) the call FindIndex 2 returns 1, the
lower-bound index of the duplicate run, not an arbitrary matching index. -/
theorem C9_witness :
    (1 : Int) =
      ((lowerBound ([⟨1, 7⟩, ⟨2, 8⟩, ⟨2, 9⟩] : List (KeyValuePair Int Int)) 2 : Nat) : Int) :=
  ((C9_find_index (⟨⟨0, [⟨1, 7⟩, ⟨2, 8⟩, ⟨2, 9⟩], 0⟩, 4, 16, false⟩ : Map Int Int) 2 1
    (by decide) (by decide)).1 (by decide)).1

/-- C10: both assignment operators are guarded by the address check against
self-assignment, so a = a (copy form or move form) leaves the map — its
elements, capacity, growth policy and mode flag — unchanged. -/
theorem C10_self_assignment {KEY VALUE : Type} (a : Map KEY VALUE) :
    a.copyAssign a true = a ∧
    (a.moveAssign a true).1 = a ∧ (a.moveAssign a true).2 = a := by
  unfold Map.copyAssign Map.moveAssign
  simp

end Claims

end Oryol
